import Mathlib

/-!
Shallow embedding of the cache determination and synchronization engine of
metal-image-cache-sync, together with proofs about the embedded operations.

The embedding covers:
* the image selection algorithm of the sync lister
  (`cmd/internal/determine-sync-images/lister.go`, both the current
  `DetermineImageSyncList` with its `for sizeCount < maxCacheSize` reduction
  loop and the earlier `DetermineSyncList` whose loop breaks when
  `sizeCount < maxCacheSize`), including the per-variant cap and the
  `reduce` eviction step;
* the cache diff engine (`Syncer.defineDiff` in `cmd/internal/sync/syncer.go`);
* the materializer (`Syncer.download`, `Syncer.remove`, and the batch loops
  of `Syncer.Sync`), modelled as traces of primitive filesystem steps with
  injectable failures;
* the per-cycle orchestrator (`runSync` in `cmd/main.go`).

Machine integers (`int64`) are modelled as `Int`; the code performs no
wrapping arithmetic on the relevant paths.  Network and filesystem outcomes
are modelled as explicit oracles (success/failure injections), fallible code
returns `Except`/`Option`.
-/

namespace ImageCacheSync

instance {ε α : Type} [DecidableEq ε] [DecidableEq α] : DecidableEq (Except ε α)
  | .error x, .error y =>
    decidable_of_iff (x = y) ⟨by rintro rfl; rfl, by intro h; cases h; rfl⟩
  | .error _, .ok _ => isFalse (by intro h; cases h)
  | .ok _, .error _ => isFalse (by intro h; cases h)
  | .ok x, .ok y =>
    decidable_of_iff (x = y) ⟨by rintro rfl; rfl, by intro h; cases h; rfl⟩

/-- Semantic version as compared by the lister: the `Masterminds/semver`
library orders by major, then minor, then patch (prerelease tags are not used
by metal-stack image identifiers, so they are omitted from the model). -/
structure Semver where
  major : Nat
  minor : Nat
  patch : Nat
deriving DecidableEq, Repr

/-- `Version.LessThan`: strict lexicographic order on (major, minor, patch). -/
def Semver.ltb (a b : Semver) : Bool :=
  decide (a.major < b.major ∨ (a.major = b.major ∧
    (a.minor < b.minor ∨ (a.minor = b.minor ∧ a.patch < b.patch))))

/-- Non-strict version order, `a ≤ b` iff `¬ b.LessThan a`. -/
def Semver.leb (a b : Semver) : Bool :=
  !(Semver.ltb b a)

/-- An image candidate as assembled by `DetermineImageSyncList`: `Name` and
`Version` parsed from the image id, the S3 object size (`ImageRef.Size`) and
the bucket key used as the on-disk sub path. -/
structure OSImg where
  name : String
  ver : Semver
  size : Int
  bucketKey : String
deriving DecidableEq, Repr

/-- `fmt.Sprintf("%d.%d", ver.Major(), ver.Minor())`. -/
def mmStr (v : Semver) : String :=
  toString v.major ++ "." ++ toString v.minor

/-- The nested-map key `(osName, majorMinor)` used by the per-variant cap
(`images[os][majorMinor]`). -/
def bucketPair (i : OSImg) : String × String :=
  (i.name, mmStr i.ver)

/-- The eviction-group key `fmt.Sprintf("%s-%d.%d", name, major, minor)`
used by `SyncLister.reduce`. -/
def groupKey (i : OSImg) : String :=
  i.name ++ "-" ++ mmStr i.ver

/-- Comparator underlying `api.SortOSImagesByName` (name ascending, then
version ascending); this is the non-strict total order the sorted slice
satisfies. -/
def osLe (a b : OSImg) : Bool :=
  if a.name = b.name then Semver.leb a.ver b.ver else decide (a.name < b.name)

/-- The sort order of `api.SortOSImagesByName` as a relation. -/
def osLeR : OSImg → OSImg → Prop := fun a b => osLe a b = true

instance : DecidableRel osLeR := fun a b => instDecidableEqBool (osLe a b) true

/-- `api.SortOSImagesByName`: sort the flat candidate list by
(name, version) ascending (the Go `sort.Slice` is not stable, so any sorting
algorithm for the comparator is a faithful model). -/
def sortOSImagesByName (l : List OSImg) : List OSImg :=
  l.insertionSort osLeR

/-- Descending comparator used inside each `(os, majorMinor)` bucket
(`versionedImages[i].Version.GreaterThan(versionedImages[j].Version)`). -/
def verGe (a b : OSImg) : Bool :=
  Semver.leb b.ver a.ver

/-- The descending bucket order as a relation. -/
def verGeR : OSImg → OSImg → Prop := fun a b => verGe a b = true

instance : DecidableRel verGeR := fun a b => instDecidableEqBool (verGe a b) true

/-- The inner keep-loop of the per-variant cap: starting from counter
`amount`, keep images of the (descending-sorted) bucket while not
`maxPer > 0 && amount >= maxPer`. -/
def capLoop (maxPer : Int) : Int → List OSImg → List OSImg
  | _, [] => []
  | amount, img :: rest =>
    if maxPer > 0 ∧ maxPer ≤ amount then []
    else img :: capLoop maxPer (amount + 1) rest

/-- Per-variant cap for one `(os, majorMinor)` bucket: sort descending by
full version, keep at most `maxPer` (all if `maxPer ≤ 0`). -/
def capBucket (maxPer : Int) (bucket : List OSImg) : List OSImg :=
  capLoop maxPer 0 (bucket.insertionSort verGeR)

/-- The distinct `(osName, majorMinor)` keys of the eligible images, in
first-occurrence order (the nested Go maps are keyed by these pairs). -/
def bucketKeys (eligible : List OSImg) : List (String × String) :=
  (eligible.map bucketPair).dedup

/-- The bucket `images[os][majorMinor]`: eligible images appended in
enumeration order, i.e. the filter of the eligible list by the key. -/
def bucketOf (eligible : List OSImg) (k : String × String) : List OSImg :=
  eligible.filter (fun i => bucketPair i = k)

/-- The per-variant capping phase of `DetermineImageSyncList`: every bucket
is sorted descending and capped, and the kept images are collected
(map iteration order only permutes the result, which is sorted afterwards;
the model fixes first-occurrence bucket order). -/
def capPhase (maxPer : Int) (eligible : List OSImg) : List OSImg :=
  ((bucketKeys eligible).map (fun k => capBucket maxPer (bucketOf eligible k))).flatten

/-- `sizeCount`: sum of `ImageRef.Size` over the kept images. -/
def sumSizes (l : List OSImg) : Int :=
  (l.map (·.size)).sum

/-- The sorted list of eviction-group keys built by `reduce`
(`groupNames` collected from the map and sorted with `sort.Strings`). -/
def groupKeys (images : List OSImg) : List String :=
  ((images.map groupKey).dedup).insertionSort (· ≤ ·)

/-- The eviction group `groups[key]`: members appended in flat-list order. -/
def groupOf (images : List OSImg) (k : String) : List OSImg :=
  images.filter (fun i => groupKey i = k)

/-- The selection loop of `reduce`: scan the sorted group names with
`currentBiggest` starting at 1, replacing the leader only when the member
count exceeds `minPer` and strictly exceeds the current leader's count. -/
def pickLoop (minPer : Int) (count : String → Nat) :
    List String → Option String × Int → Option String × Int
  | [], acc => acc
  | n :: rest, (big, cur) =>
    if (count n : Int) > minPer ∧ (count n : Int) > cur then
      pickLoop minPer count rest (some n, (count n : Int))
    else
      pickLoop minPer count rest (big, cur)

/-- `biggestGroup` as computed by `reduce` (`none` models the `""` sentinel,
which no group key can collide with since keys contain a `-`). -/
def pickBiggest (minPer : Int) (count : String → Nat) (names : List String) :
    Option String :=
  (pickLoop minPer count names (none, 1)).1

/-- `SyncLister.reduce`: group the candidates by eviction-group key, pick the
biggest group still above `minPer`, evict its first member (the flat list is
kept sorted by (name, version) ascending, so this is the lowest version of
the group), subtract its size, rebuild and re-sort the flat list.  Returns an
error when no group can be reduced. -/
def reduce (minPer : Int) (images : List OSImg) (sizeCount : Int) :
    Except String (List OSImg × Int) :=
  match pickBiggest minPer (fun k => (groupOf images k).length) (groupKeys images) with
  | none => .error "can not reduce any further"
  | some g =>
    match groupOf images g with
    | [] => .error "chosen group is empty"
    | evicted :: restGrp =>
      .ok (sortOSImagesByName
            ((images.filter (fun i => decide (groupKey i ≠ g))) ++ restGrp),
          sizeCount - evicted.size)

/-- Reduction loop of the current `DetermineImageSyncList` (part of the slog
rewrite): `for sizeCount < s.config.MaxCacheSize { ... reduce ... }`, breaking
when `reduce` fails.  The loop is embedded with explicit fuel; each
successful `reduce` removes exactly one image, so `images.length + 1` fuel is
always sufficient (`reduceLoopNewF_fuel`). -/
def reduceLoopNewF (minPer maxCache : Int) :
    Nat → List OSImg → Int → List OSImg × Int
  | 0, images, sizeCount => (images, sizeCount)
  | fuel + 1, images, sizeCount =>
    if sizeCount < maxCache then
      match reduce minPer images sizeCount with
      | .error _ => (images, sizeCount)
      | .ok (imgs', size') => reduceLoopNewF minPer maxCache fuel imgs' size'
    else (images, sizeCount)

/-- The current reduction loop with sufficient fuel. -/
def reduceLoopNew (minPer maxCache : Int) (images : List OSImg) (sizeCount : Int) :
    List OSImg × Int :=
  reduceLoopNewF minPer maxCache (images.length + 1) images sizeCount

/-- Reduction loop of the earlier `DetermineSyncList`:
`for { if sizeCount < maxCacheSize { break }; ... reduce ... }`. -/
def reduceLoopOldF (minPer maxCache : Int) :
    Nat → List OSImg → Int → List OSImg × Int
  | 0, images, sizeCount => (images, sizeCount)
  | fuel + 1, images, sizeCount =>
    if sizeCount < maxCache then (images, sizeCount)
    else
      match reduce minPer images sizeCount with
      | .error _ => (images, sizeCount)
      | .ok (imgs', size') => reduceLoopOldF minPer maxCache fuel imgs' size'

/-- The earlier reduction loop with sufficient fuel. -/
def reduceLoopOld (minPer maxCache : Int) (images : List OSImg) (sizeCount : Int) :
    List OSImg × Int :=
  reduceLoopOldF minPer maxCache (images.length + 1) images sizeCount

/-- `DetermineImageSyncList` after filtering/eligibility: per-variant cap,
global name-version sort, then the (current, inverted) size-reduction loop. -/
def determineImageSyncList (minPer maxPer maxCache : Int) (eligible : List OSImg) :
    List OSImg × Int :=
  let selected := capPhase maxPer eligible
  reduceLoopNew minPer maxCache (sortOSImagesByName selected) (sumSizes selected)

/-! ### Order lemmas for the comparators -/

theorem Semver.leb_total (a b : Semver) : Semver.leb a b = true ∨ Semver.leb b a = true := by
  simp only [Semver.leb, Semver.ltb, Bool.not_eq_true', decide_eq_false_iff_not]
  omega

theorem Semver.leb_trans {a b c : Semver} (hab : Semver.leb a b = true)
    (hbc : Semver.leb b c = true) : Semver.leb a c = true := by
  simp only [Semver.leb, Semver.ltb, Bool.not_eq_true', decide_eq_false_iff_not] at *
  omega

theorem osLe_total (a b : OSImg) : osLeR a b ∨ osLeR b a := by
  unfold osLeR osLe
  rcases eq_or_ne a.name b.name with h | h
  · simp only [h, if_pos rfl]
    exact Semver.leb_total a.ver b.ver
  · simp only [if_neg h, if_neg (Ne.symm h), decide_eq_true_eq]
    exact lt_or_gt_of_ne h

theorem osLe_trans {a b c : OSImg} (hab : osLeR a b) (hbc : osLeR b c) : osLeR a c := by
  unfold osLeR osLe at *
  rcases eq_or_ne a.name b.name with h1 | h1 <;> rcases eq_or_ne b.name c.name with h2 | h2
  · rw [if_pos h1] at hab
    rw [if_pos h2] at hbc
    rw [if_pos (h1.trans h2)]
    exact Semver.leb_trans hab hbc
  · rw [if_neg (h1 ▸ h2)]
    rw [if_neg h2, decide_eq_true_eq] at hbc
    rw [decide_eq_true_eq]
    exact h1 ▸ hbc
  · rw [if_neg (h2 ▸ h1)]
    rw [if_neg h1, decide_eq_true_eq] at hab
    rw [decide_eq_true_eq]
    exact h2 ▸ hab
  · rw [if_neg h1, decide_eq_true_eq] at hab
    rw [if_neg h2, decide_eq_true_eq] at hbc
    have hac := hab.trans hbc
    rw [if_neg hac.ne, decide_eq_true_eq]
    exact hac

instance : IsTotal OSImg osLeR := ⟨osLe_total⟩

instance : IsTrans OSImg osLeR := ⟨fun _ _ _ => osLe_trans⟩

theorem verGe_total (a b : OSImg) : verGeR a b ∨ verGeR b a := by
  unfold verGeR verGe
  exact (Semver.leb_total b.ver a.ver).elim Or.inl Or.inr

theorem verGe_trans {a b c : OSImg} (hab : verGeR a b) (hbc : verGeR b c) : verGeR a c := by
  unfold verGeR verGe at *
  exact Semver.leb_trans hbc hab

instance : IsTotal OSImg verGeR := ⟨verGe_total⟩

instance : IsTrans OSImg verGeR := ⟨fun _ _ _ => verGe_trans⟩

/-! ### Structure of `reduce` -/

/-- Length bookkeeping for filters: a list splits into the part satisfying a
Bool predicate and the rest. -/
theorem length_filter_add_not {α : Type} (p : α → Bool) (l : List α) :
    (l.filter p).length + (l.filter (fun a => !(p a))).length = l.length := by
  induction l with
  | nil => rfl
  | cons x xs ih =>
    by_cases h : p x = true
    · simp [List.filter_cons, h, ih]
      omega
    · simp only [Bool.not_eq_true] at h
      simp [List.filter_cons, h, ih]
      omega

/-- A successful `reduce` removes exactly one image. -/
theorem reduce_length {minPer : Int} {images res : List OSImg} {s s' : Int}
    (h : reduce minPer images s = .ok (res, s')) :
    res.length + 1 = images.length := by
  unfold reduce at h
  split at h
  · cases h
  · rename_i g hp
    split at h
    · cases h
    · rename_i evicted restGrp hg
      cases h
      have hperm := List.perm_insertionSort osLeR
        ((images.filter (fun i => decide (groupKey i ≠ g))) ++ restGrp)
      have hlen := hperm.length_eq
      rw [sortOSImagesByName, hlen, List.length_append]
      have hsplit := length_filter_add_not (fun i => decide (groupKey i = g)) images
      have hgrp : images.filter (fun i => decide (groupKey i = g)) = evicted :: restGrp := hg
      have hcongr : images.filter (fun i => decide (groupKey i ≠ g))
          = images.filter (fun i => !(decide (groupKey i = g))) := by
        apply List.filter_congr
        intro a _
        simp [decide_not]
      rw [hcongr]
      rw [hgrp] at hsplit
      simp only [List.length_cons] at hsplit
      omega

/-- Anatomy of a successful `reduce`: the chosen group, the evicted head and
the rebuilt list. -/
theorem reduce_spec {minPer : Int} {images res : List OSImg} {s s' : Int}
    (h : reduce minPer images s = .ok (res, s')) :
    ∃ g evicted restGrp,
      pickBiggest minPer (fun k => (groupOf images k).length) (groupKeys images) = some g ∧
      groupOf images g = evicted :: restGrp ∧
      s' = s - evicted.size ∧
      res = sortOSImagesByName
        ((images.filter (fun i => decide (groupKey i ≠ g))) ++ restGrp) := by
  unfold reduce at h
  split at h
  · cases h
  · rename_i g hp
    split at h
    · cases h
    · rename_i evicted restGrp hg
      cases h
      exact ⟨g, evicted, restGrp, hp, hg, rfl, rfl⟩

/-- Every member of a group carries the group's key. -/
theorem mem_groupOf {images : List OSImg} {k : String} {x : OSImg}
    (hx : x ∈ groupOf images k) : x ∈ images ∧ groupKey x = k := by
  have := List.mem_filter.mp hx
  exact ⟨this.1, by simpa using this.2⟩

/-- A successful `reduce` only ever drops images: any filter count can only
shrink. -/
theorem reduce_count_le {minPer : Int} {images res : List OSImg} {s s' : Int}
    (h : reduce minPer images s = .ok (res, s')) (p : OSImg → Bool) :
    (res.filter p).length ≤ (images.filter p).length := by
  obtain ⟨g, evicted, restGrp, _, hg, _, hres⟩ := reduce_spec h
  have hperm : (res.filter p).length
      = (((images.filter (fun i => decide (groupKey i ≠ g))) ++ restGrp).filter p).length := by
    rw [hres]
    exact ((List.perm_insertionSort osLeR _).filter p).length_eq
  rw [hperm, List.filter_append, List.length_append]
  have h1 : ((images.filter (fun i => decide (groupKey i ≠ g))).filter p).length
      = ((images.filter p).filter (fun i => !(decide (groupKey i = g)))).length := by
    rw [List.filter_comm]
    congr 1
    apply List.filter_congr
    intro a _
    simp [decide_not]
  have h2 : (restGrp.filter p).length ≤ ((images.filter p).filter
      (fun i => decide (groupKey i = g))).length := by
    have hsub : restGrp.Sublist (groupOf images g) := by
      rw [hg]; exact List.sublist_cons_self _ _
    have : (restGrp.filter p).Sublist ((groupOf images g).filter p) := hsub.filter p
    have hle := this.length_le
    rw [groupOf, List.filter_comm] at hle
    exact hle
  have hsplit := length_filter_add_not (fun i => decide (groupKey i = g)) (images.filter p)
  omega

/-- The group keys scanned by `reduce` are strictly sorted (collected from a
map, hence distinct, and sorted with `sort.Strings`). -/
theorem groupKeys_sorted (images : List OSImg) :
    List.Pairwise (· < ·) (groupKeys images) := by
  have hsorted : List.Sorted (· ≤ ·) (groupKeys images) :=
    List.sorted_insertionSort (· ≤ ·) ((images.map groupKey).dedup)
  have hnodup : (groupKeys images).Nodup :=
    (List.nodup_dedup _).perm (List.perm_insertionSort (· ≤ ·) _).symm
  exact hsorted.lt_of_le hnodup

/-- Main invariant of the leader-selection scan in `reduce`: either nothing
qualified beyond the running leader, or the result is the first
maximal-count qualifying group. -/
theorem pickLoop_invariant (minPer : Int) (count : String → Nat) :
    ∀ (names : List String) (big : Option String) (cur : Int),
    List.Pairwise (· < ·) names →
    (pickLoop minPer count names (big, cur) = (big, cur) ∧
       ∀ n ∈ names, (count n : Int) > minPer → (count n : Int) ≤ cur)
    ∨ (∃ g ∈ names, pickLoop minPer count names (big, cur) = (some g, (count g : Int)) ∧
        (count g : Int) > minPer ∧ (count g : Int) > cur ∧
        (∀ n ∈ names, (count n : Int) > minPer → count n ≤ count g) ∧
        (∀ n ∈ names, n < g → (count n : Int) > minPer → count n < count g)) := by
  intro names
  induction names with
  | nil =>
    intro big cur _
    exact Or.inl ⟨rfl, by simp⟩
  | cons m rest ih =>
    intro big cur hpw
    have hm : ∀ x ∈ rest, m < x := fun x hx => List.rel_of_pairwise_cons hpw hx
    have hrest := hpw.of_cons
    by_cases hc : (count m : Int) > minPer ∧ (count m : Int) > cur
    · have hstep : pickLoop minPer count (m :: rest) (big, cur)
          = pickLoop minPer count rest (some m, (count m : Int)) := by
        simp [pickLoop, hc]
      rcases ih (some m) (count m : Int) hrest with ⟨heq, hbound⟩ | ⟨g, hgmem, heq, h1, h2, h3, h4⟩
      · refine Or.inr ⟨m, List.mem_cons_self m rest, ?_, hc.1, hc.2, ?_, ?_⟩
        · rw [hstep, heq]
        · intro n hn he
          rcases List.mem_cons.mp hn with rfl | hn
          · exact le_refl _
          · exact_mod_cast hbound n hn he
        · intro n hn hlt he
          rcases List.mem_cons.mp hn with rfl | hn
          · exact absurd hlt (lt_irrefl n)
          · exact absurd hlt (asymm (hm n hn))
      · refine Or.inr ⟨g, List.mem_cons_of_mem m hgmem, ?_, h1, lt_trans hc.2 h2, ?_, ?_⟩
        · rw [hstep, heq]
        · intro n hn he
          rcases List.mem_cons.mp hn with rfl | hn
          · exact_mod_cast le_of_lt h2
          · exact h3 n hn he
        · intro n hn hlt he
          rcases List.mem_cons.mp hn with rfl | hn
          · exact_mod_cast h2
          · exact h4 n hn hlt he
    · have hstep : pickLoop minPer count (m :: rest) (big, cur)
          = pickLoop minPer count rest (big, cur) := by
        simp only [pickLoop]
        rw [if_neg hc]
      rcases ih big cur hrest with ⟨heq, hbound⟩ | ⟨g, hgmem, heq, h1, h2, h3, h4⟩
      · refine Or.inl ⟨by rw [hstep, heq], ?_⟩
        intro n hn he
        rcases List.mem_cons.mp hn with rfl | hn
        · exact le_of_not_lt (fun hgt => hc ⟨he, hgt⟩)
        · exact hbound n hn he
      · refine Or.inr ⟨g, List.mem_cons_of_mem m hgmem, by rw [hstep, heq], h1, h2, ?_, ?_⟩
        · intro n hn he
          rcases List.mem_cons.mp hn with rfl | hn
          · have : (count n : Int) ≤ cur := le_of_not_lt (fun hgt => hc ⟨he, hgt⟩)
            exact_mod_cast le_of_lt (lt_of_le_of_lt this h2)
          · exact h3 n hn he
        · intro n hn _ he
          rcases List.mem_cons.mp hn with rfl | hn
          · have : (count n : Int) ≤ cur := le_of_not_lt (fun hgt => hc ⟨he, hgt⟩)
            exact_mod_cast lt_of_le_of_lt this h2
          · exact h4 n hn (by assumption) he

/-- Behaviour of `biggestGroup` selection: a picked group qualifies and has
maximal count with ties resolved to the alphabetically smallest key; when no
group qualifies (`minPer ≥ 1`, as enforced by config validation) nothing is
picked, and conversely some group is picked whenever one qualifies. -/
theorem pickBiggest_spec (minPer : Int) (count : String → Nat)
    (names : List String) (hs : List.Pairwise (· < ·) names) :
    (∀ g, pickBiggest minPer count names = some g →
      g ∈ names ∧ (count g : Int) > minPer ∧
      (∀ n ∈ names, (count n : Int) > minPer → count n ≤ count g) ∧
      (∀ n ∈ names, (count n : Int) > minPer → count n = count g → g ≤ n)) ∧
    ((∀ n ∈ names, ¬((count n : Int) > minPer)) → pickBiggest minPer count names = none) ∧
    (1 ≤ minPer → (∃ n ∈ names, (count n : Int) > minPer) →
      pickBiggest minPer count names ≠ none) := by
  rcases pickLoop_invariant minPer count names none 1 hs with
    ⟨heq, hbound⟩ | ⟨g, hgmem, heq, h1, _, h3, h4⟩
  · refine ⟨?_, ?_, ?_⟩
    · intro g hg
      rw [pickBiggest, heq] at hg
      cases hg
    · intro _
      rw [pickBiggest, heq]
    · intro hmin ⟨n, hn, he⟩
      have := hbound n hn he
      omega
  · refine ⟨?_, ?_, ?_⟩
    · intro g' hg'
      rw [pickBiggest, heq] at hg'
      cases hg'
      refine ⟨hgmem, h1, h3, ?_⟩
      intro n hn he hcnt
      by_contra hlt
      push_neg at hlt
      exact absurd hcnt (Nat.ne_of_lt (h4 n hn hlt he))
    · intro hnone
      exact absurd h1 (hnone g hgmem)
    · intro _ _
      rw [pickBiggest, heq]
      simp

/-- A successful `reduce` never leaves the targeted group (or any group)
with fewer than `minPer` members — the chosen group strictly exceeded
`minPer` before the single eviction, all other groups are untouched. -/
theorem reduce_group_min {minPer : Int} (hmin : 1 ≤ minPer)
    {images res : List OSImg} {s s' : Int}
    (h : reduce minPer images s = .ok (res, s')) (k : String) :
    min ((groupOf images k).length) minPer.toNat ≤ (groupOf res k).length := by
  obtain ⟨g, evicted, restGrp, hp, hg, _, hres⟩ := reduce_spec h
  have hpick := (pickBiggest_spec minPer (fun k => (groupOf images k).length)
    (groupKeys images) (groupKeys_sorted images)).1 g hp
  have hcnt : ((groupOf images g).length : Int) > minPer := hpick.2.1
  have hlenres : (groupOf res k).length
      = (((images.filter (fun i => decide (groupKey i ≠ g))) ++ restGrp).filter
          (fun i => decide (groupKey i = k))).length := by
    rw [groupOf, hres]
    exact ((List.perm_insertionSort osLeR _).filter _).length_eq
  rw [hlenres, List.filter_append, List.length_append]
  have hrest_all : ∀ x ∈ restGrp, groupKey x = g := by
    intro x hx
    exact (mem_groupOf (hg ▸ List.mem_cons_of_mem evicted hx)).2
  by_cases hk : k = g
  · subst hk
    have hfirst : (images.filter (fun i => decide (groupKey i ≠ k))).filter
        (fun i => decide (groupKey i = k)) = [] := by
      rw [List.filter_eq_nil_iff]
      intro a ha
      have := (List.mem_filter.mp ha).2
      simp only [decide_eq_true_eq] at this
      simp [this]
    have hsecond : restGrp.filter (fun i => decide (groupKey i = k)) = restGrp := by
      apply List.filter_eq_self.mpr
      intro a ha
      simp [hrest_all a ha]
    rw [hfirst, hsecond]
    have : (groupOf images k).length = restGrp.length + 1 := by
      rw [hg, List.length_cons]
    omega
  · have hfirst : (images.filter (fun i => decide (groupKey i ≠ g))).filter
        (fun i => decide (groupKey i = k)) = images.filter (fun i => decide (groupKey i = k)) := by
      rw [List.filter_comm]
      apply List.filter_eq_self.mpr
      intro a ha
      have hak := (List.mem_filter.mp ha).2
      simp only [decide_eq_true_eq] at hak
      simp [hak, hk]
    have hsecond : restGrp.filter (fun i => decide (groupKey i = k)) = [] := by
      rw [List.filter_eq_nil_iff]
      intro a ha
      simp only [hrest_all a ha, decide_eq_true_eq]
      exact fun hgk => hk hgk.symm
    rw [hfirst, hsecond]
    rw [groupOf]
    omega

/-! ### The per-variant cap -/

/-- With a positive cap, the keep-loop retains at most `maxPer - amount`
images. -/
theorem capLoop_length {maxPer : Int} (hpos : 0 < maxPer) :
    ∀ (l : List OSImg) (a : Int), ((capLoop maxPer a l).length : Int) ≤ max (maxPer - a) 0 := by
  intro l
  induction l with
  | nil => intro a; simp [capLoop]
  | cons x xs ih =>
    intro a
    by_cases hbr : maxPer > 0 ∧ maxPer ≤ a
    · simp [capLoop, hbr]
    · rw [capLoop, if_neg hbr]
      have := ih (a + 1)
      simp only [List.length_cons]
      push_cast
      omega

/-- With `maxPer ≤ 0` (unlimited) the keep-loop keeps everything. -/
theorem capLoop_nonpos {maxPer : Int} (hnp : maxPer ≤ 0) :
    ∀ (l : List OSImg) (a : Int), capLoop maxPer a l = l := by
  intro l
  induction l with
  | nil => intro a; rfl
  | cons x xs ih =>
    intro a
    rw [capLoop, if_neg (by omega)]
    rw [ih]

/-- The keep-loop yields a prefix of its input. -/
theorem capLoop_take (maxPer : Int) :
    ∀ (l : List OSImg) (a : Int), ∃ n, capLoop maxPer a l = l.take n := by
  intro l
  induction l with
  | nil => intro a; exact ⟨0, rfl⟩
  | cons x xs ih =>
    intro a
    by_cases hbr : maxPer > 0 ∧ maxPer ≤ a
    · exact ⟨0, by simp [capLoop, hbr]⟩
    · obtain ⟨n, hn⟩ := ih (a + 1)
      exact ⟨n + 1, by rw [capLoop, if_neg hbr, hn]; rfl⟩

/-- Capped buckets only contain bucket members. -/
theorem mem_capBucket {maxPer : Int} {bucket : List OSImg} {x : OSImg}
    (hx : x ∈ capBucket maxPer bucket) : x ∈ bucket := by
  obtain ⟨n, hn⟩ := capLoop_take maxPer (bucket.insertionSort verGeR) 0
  rw [capBucket, hn] at hx
  exact (List.perm_insertionSort verGeR bucket).mem_iff.mp ((List.take_sublist n _).mem hx)

/-- The kept part of a bucket is sorted descending by full version. -/
theorem capBucket_sorted (maxPer : Int) (bucket : List OSImg) :
    List.Pairwise verGeR (capBucket maxPer bucket) := by
  obtain ⟨n, hn⟩ := capLoop_take maxPer (bucket.insertionSort verGeR) 0
  rw [capBucket, hn]
  exact List.Pairwise.sublist (List.take_sublist n _) (List.sorted_insertionSort verGeR bucket)

/-- Bucket members carry the bucket's `(osName, majorMinor)` key. -/
theorem mem_bucketOf {eligible : List OSImg} {k : String × String} {x : OSImg}
    (hx : x ∈ bucketOf eligible k) : x ∈ eligible ∧ bucketPair x = k := by
  have := List.mem_filter.mp hx
  exact ⟨this.1, by simpa using this.2⟩

/-- Summing the capped buckets over distinct keys, only the bucket of key `k`
contributes images with key `k`. -/
theorem capPhase_filter_le (maxPer : Int) (eligible : List OSImg) (k : String × String) :
    ∀ keys : List (String × String), keys.Nodup →
    (((keys.map (fun k' => capBucket maxPer (bucketOf eligible k'))).flatten.filter
        (fun i => decide (bucketPair i = k))).length)
      ≤ (capBucket maxPer (bucketOf eligible k)).length := by
  intro keys
  induction keys with
  | nil => intro _; simp
  | cons k' rest ih =>
    intro hnd
    rw [List.map_cons, List.flatten_cons, List.filter_append, List.length_append]
    by_cases hk : k' = k
    · subst hk
      have hrest : ((rest.map (fun k'' => capBucket maxPer (bucketOf eligible k''))).flatten.filter
          (fun i => decide (bucketPair i = k'))).length = 0 := by
        rw [List.length_eq_zero, List.filter_eq_nil_iff]
        intro a ha
        obtain ⟨l, hl, hal⟩ := List.mem_flatten.mp ha
        obtain ⟨k'', hk''mem, rfl⟩ := List.mem_map.mp hl
        have hpair := (mem_bucketOf (mem_capBucket hal)).2
        have hne : k'' ≠ k' := fun he => (List.nodup_cons.mp hnd).1 (he ▸ hk''mem)
        simp [hpair, hne]
      rw [hrest]
      have := List.length_filter_le (fun i => decide (bucketPair i = k'))
        (capBucket maxPer (bucketOf eligible k'))
      omega
    · have hhead : ((capBucket maxPer (bucketOf eligible k')).filter
          (fun i => decide (bucketPair i = k))).length = 0 := by
        rw [List.length_eq_zero, List.filter_eq_nil_iff]
        intro a ha
        have hpair := (mem_bucketOf (mem_capBucket ha)).2
        simp [hpair, hk]
      rw [hhead]
      have := ih (List.nodup_cons.mp hnd).2
      omega

/-- When the cap is unlimited, the capping phase keeps every eligible image. -/
theorem capPhase_nonpos {maxPer : Int} (hnp : maxPer ≤ 0) (eligible : List OSImg) :
    ∀ i ∈ eligible, i ∈ capPhase maxPer eligible := by
  intro i hi
  rw [capPhase]
  apply List.mem_flatten.mpr
  refine ⟨capBucket maxPer (bucketOf eligible (bucketPair i)), ?_, ?_⟩
  · apply List.mem_map.mpr
    refine ⟨bucketPair i, ?_, rfl⟩
    exact List.mem_dedup.mpr (List.mem_map.mpr ⟨i, hi, rfl⟩)
  · rw [capBucket, capLoop_nonpos hnp]
    apply (List.perm_insertionSort verGeR _).mem_iff.mpr
    exact List.mem_filter.mpr ⟨hi, by simp⟩

/-! ### The reduction loops only ever remove images -/

/-- Along the (current) reduction loop, any filter count is monotonically
non-increasing. -/
theorem reduceLoopNewF_count_le (minPer maxCache : Int) (p : OSImg → Bool) :
    ∀ (fuel : Nat) (images : List OSImg) (s : Int),
    (((reduceLoopNewF minPer maxCache fuel images s).1).filter p).length
      ≤ (images.filter p).length := by
  intro fuel
  induction fuel with
  | zero => intro images s; exact le_refl _
  | succ n ih =>
    intro images s
    rw [reduceLoopNewF]
    by_cases hlt : s < maxCache
    · rw [if_pos hlt]
      cases hred : reduce minPer images s with
      | error e => exact le_refl _
      | ok pair =>
        obtain ⟨imgs', size'⟩ := pair
        exact le_trans (ih imgs' size') (reduce_count_le hred p)
    · rw [if_neg hlt]

/-! ### Claim theorems about the selector -/

/-- C1: the current `DetermineImageSyncList` runs its size-reduction loop
while `sizeCount < maxCacheSize` — the opposite of the specified
`sizeCount >= maxCacheSize` guard (which the earlier `DetermineSyncList`
implements).  At the concrete catalog below (two 4-unit ubuntu 1.0 images,
budget 6, `minImagesPerName` 1) the current code returns the over-budget
selection untouched although an eviction was permitted, while the earlier
loop reduces below budget; with a large budget (100) the current code
needlessly evicts an image although the selection was already under
budget. -/
theorem C1_sizeLoop_inverted :
    sumSizes [⟨"ubuntu", ⟨1,0,1⟩, 4, "k1"⟩, ⟨"ubuntu", ⟨1,0,2⟩, 4, "k2"⟩] = 8 ∧
    ¬((8 : Int) < 6) ∧
    determineImageSyncList 1 10 6 [⟨"ubuntu", ⟨1,0,1⟩, 4, "k1"⟩, ⟨"ubuntu", ⟨1,0,2⟩, 4, "k2"⟩]
      = ([⟨"ubuntu", ⟨1,0,1⟩, 4, "k1"⟩, ⟨"ubuntu", ⟨1,0,2⟩, 4, "k2"⟩], 8) ∧
    ((groupOf [⟨"ubuntu", ⟨1,0,1⟩, 4, "k1"⟩, ⟨"ubuntu", ⟨1,0,2⟩, 4, "k2"⟩]
        "ubuntu-1.0").length : Int) > 1 ∧
    reduceLoopOld 1 6 [⟨"ubuntu", ⟨1,0,1⟩, 4, "k1"⟩, ⟨"ubuntu", ⟨1,0,2⟩, 4, "k2"⟩] 8
      = ([⟨"ubuntu", ⟨1,0,2⟩, 4, "k2"⟩], 4) ∧
    determineImageSyncList 1 10 100 [⟨"ubuntu", ⟨1,0,1⟩, 4, "k1"⟩, ⟨"ubuntu", ⟨1,0,2⟩, 4, "k2"⟩]
      = ([⟨"ubuntu", ⟨1,0,2⟩, 4, "k2"⟩], 4) := by
  refine ⟨by decide, by decide, by decide, by decide, by decide, by decide⟩

/-- C3: for every policy with `minImagesPerName ≥ 1`, the selector keeps at
most `maxPerName` images per `(osName, majorMinor)` group (all of them while
capping when the cap is non-positive, each bucket being sorted descending by
full version), and a `reduce` step never leaves any eviction group with
fewer than `minPerName` members than it is entitled to
(`min (previous count) minPerName ≤ new count`). -/
theorem C3_cap_invariant (minPer maxPer maxCache : Int) (hmin : 1 ≤ minPer) :
    (∀ (eligible : List OSImg), 0 < maxPer → ∀ k : String × String,
       (((determineImageSyncList minPer maxPer maxCache eligible).1.filter
          (fun i => decide (bucketPair i = k))).length : Int) ≤ maxPer) ∧
    (∀ (eligible : List OSImg), maxPer ≤ 0 → ∀ i ∈ eligible, i ∈ capPhase maxPer eligible) ∧
    (∀ bucket : List OSImg, List.Pairwise verGeR (capBucket maxPer bucket)) ∧
    (∀ (images res : List OSImg) (s s' : Int) (k : String),
       reduce minPer images s = .ok (res, s') →
       min ((groupOf images k).length) minPer.toNat ≤ (groupOf res k).length) := by
  refine ⟨?_, fun e hnp => capPhase_nonpos hnp e, fun b => capBucket_sorted maxPer b,
    fun _ _ _ _ k h => reduce_group_min hmin h k⟩
  intro eligible hpos k
  have hloop := reduceLoopNewF_count_le minPer maxCache
    (fun i => decide (bucketPair i = k))
    ((sortOSImagesByName (capPhase maxPer eligible)).length + 1)
    (sortOSImagesByName (capPhase maxPer eligible)) (sumSizes (capPhase maxPer eligible))
  have hsort : ((sortOSImagesByName (capPhase maxPer eligible)).filter
      (fun i => decide (bucketPair i = k))).length
      = ((capPhase maxPer eligible).filter (fun i => decide (bucketPair i = k))).length :=
    ((List.perm_insertionSort osLeR _).filter _).length_eq
  have hcap : ((capPhase maxPer eligible).filter
      (fun i => decide (bucketPair i = k))).length
      ≤ (capBucket maxPer (bucketOf eligible k)).length := by
    have := capPhase_filter_le maxPer eligible k (bucketKeys eligible) (List.nodup_dedup _)
    simpa [capPhase] using this
  have hbound : ((capBucket maxPer (bucketOf eligible k)).length : Int) ≤ maxPer := by
    have := capLoop_length hpos ((bucketOf eligible k).insertionSort verGeR) 0
    simp only [capBucket]
    omega
  simp only [determineImageSyncList, reduceLoopNew] at *
  omega

/-- C4: each `reduce` picks, among eviction groups with more than
`minImagesPerName` members (the config validator guarantees
`minImagesPerName ≥ 1`), the group of greatest member count, breaking count
ties in favour of the alphabetically smallest group key; when no group
qualifies `reduce` fails and the reduction loop accepts the current
selection unchanged. -/
theorem C4_group_choice (minPer : Int) (hmin : 1 ≤ minPer)
    (images : List OSImg) (sizeCount maxCache : Int) :
    (∀ g, pickBiggest minPer (fun k => (groupOf images k).length) (groupKeys images) = some g →
       g ∈ groupKeys images ∧ ((groupOf images g).length : Int) > minPer ∧
       (∀ n ∈ groupKeys images, ((groupOf images n).length : Int) > minPer →
          (groupOf images n).length ≤ (groupOf images g).length) ∧
       (∀ n ∈ groupKeys images, ((groupOf images n).length : Int) > minPer →
          (groupOf images n).length = (groupOf images g).length → g ≤ n)) ∧
    ((∀ n ∈ groupKeys images, ¬(((groupOf images n).length : Int) > minPer)) →
       reduce minPer images sizeCount = .error "can not reduce any further") ∧
    ((∃ n ∈ groupKeys images, ((groupOf images n).length : Int) > minPer) →
       pickBiggest minPer (fun k => (groupOf images k).length) (groupKeys images) ≠ none) ∧
    (∀ e, reduce minPer images sizeCount = .error e →
       reduceLoopNew minPer maxCache images sizeCount = (images, sizeCount)) := by
  obtain ⟨hsome, hnone, hex⟩ := pickBiggest_spec minPer
    (fun k => (groupOf images k).length) (groupKeys images) (groupKeys_sorted images)
  refine ⟨hsome, ?_, hex hmin, ?_⟩
  · intro hq
    rw [reduce, hnone hq]
  · intro e he
    rw [reduceLoopNew, reduceLoopNewF]
    by_cases hlt : sizeCount < maxCache
    · rw [if_pos hlt, he]
    · rw [if_neg hlt]

/-- C5 as stated is refuted by zero-sized images: here `reduce` succeeds and
evicts, yet `sizeCount` is unchanged (`7` before and after). -/
theorem C5_counterexample :
    reduce 1 [⟨"ubuntu", ⟨1,0,1⟩, 0, "k1"⟩, ⟨"ubuntu", ⟨1,0,2⟩, 0, "k2"⟩] 7
      = .ok ([⟨"ubuntu", ⟨1,0,2⟩, 0, "k2"⟩], 7) ∧ ¬((7 : Int) < 7) := by
  exact ⟨by decide, by decide⟩

/-- C5 (amended): a successful `reduce` evicts the head of the chosen group
— the oldest (lowest-version) member, the flat list being sorted ascending
by (name, version) — subtracts exactly its size from `sizeCount` (a strict
decrease whenever the size is positive), and removes exactly one image, so
the reduction loop terminates. -/
theorem C5_reduce_evicts_oldest (minPer : Int) (images : List OSImg) (s : Int)
    (hsorted : List.Pairwise osLeR images) {res : List OSImg} {s' : Int}
    (h : reduce minPer images s = .ok (res, s')) :
    ∃ g evicted restGrp,
      groupOf images g = evicted :: restGrp ∧
      s' = s - evicted.size ∧
      res.length + 1 = images.length ∧
      (∀ x ∈ groupOf images g, osLeR evicted x) ∧
      (∀ x ∈ groupOf images g, evicted.name = x.name →
        Semver.leb evicted.ver x.ver = true) ∧
      (0 < evicted.size → s' < s) := by
  obtain ⟨g, evicted, restGrp, hp, hg, hs', hres⟩ := reduce_spec h
  have hlen := reduce_length h
  have hgrp_sorted : List.Pairwise osLeR (groupOf images g) :=
    List.Pairwise.sublist (List.filter_sublist images) hsorted
  have hmin : ∀ x ∈ groupOf images g, osLeR evicted x := by
    intro x hx
    rw [hg] at hx
    rcases List.mem_cons.mp hx with rfl | hx
    · show osLe x x = true
      rw [osLe, if_pos rfl, Semver.leb, Semver.ltb]
      simp
    · rw [hg] at hgrp_sorted
      exact List.rel_of_pairwise_cons hgrp_sorted hx
  refine ⟨g, evicted, restGrp, hg, hs', hlen, hmin, ?_, by omega⟩
  intro x hx hname
  have := hmin x hx
  rw [osLeR, osLe, if_pos hname] at this
  exact this

theorem C3_cap_invariant_witness :
    (1 : Int) ≤ 1 ∧
    (((determineImageSyncList 1 2 100
        [⟨"ubuntu", ⟨1,0,1⟩, 1, "k1"⟩, ⟨"ubuntu", ⟨1,0,2⟩, 1, "k2"⟩,
         ⟨"ubuntu", ⟨1,0,3⟩, 1, "k3"⟩]).1.filter
        (fun i => decide (bucketPair i = ("ubuntu", "1.0")))).length : Int) ≤ 2 :=
  ⟨by decide, (C3_cap_invariant 1 2 100 (by decide)).1
    [⟨"ubuntu", ⟨1,0,1⟩, 1, "k1"⟩, ⟨"ubuntu", ⟨1,0,2⟩, 1, "k2"⟩,
     ⟨"ubuntu", ⟨1,0,3⟩, 1, "k3"⟩] (by decide) ("ubuntu", "1.0")⟩

theorem C4_group_choice_witness :
    (1 : Int) ≤ 1 ∧
    reduceLoopNew 1 6 [⟨"ubuntu", ⟨1,0,1⟩, 4, "k1"⟩] 9
      = ([⟨"ubuntu", ⟨1,0,1⟩, 4, "k1"⟩], 9) :=
  ⟨by decide, (C4_group_choice 1 (by decide) [⟨"ubuntu", ⟨1,0,1⟩, 4, "k1"⟩] 9 6).2.2.2
    "can not reduce any further" (by decide)⟩

theorem C5_reduce_evicts_oldest_witness :
    List.Pairwise osLeR
      [⟨"ubuntu", ⟨1,0,1⟩, 4, "k1"⟩, ⟨"ubuntu", ⟨1,0,2⟩, 4, "k2"⟩] ∧
    (∃ g evicted restGrp,
      groupOf [⟨"ubuntu", ⟨1,0,1⟩, 4, "k1"⟩, ⟨"ubuntu", ⟨1,0,2⟩, 4, "k2"⟩] g
        = evicted :: restGrp ∧
      (4 : Int) = 8 - evicted.size ∧
      ([⟨"ubuntu", ⟨1,0,2⟩, 4, "k2"⟩] : List OSImg).length + 1
        = ([⟨"ubuntu", ⟨1,0,1⟩, 4, "k1"⟩, ⟨"ubuntu", ⟨1,0,2⟩, 4, "k2"⟩] : List OSImg).length ∧
      (∀ x ∈ groupOf [⟨"ubuntu", ⟨1,0,1⟩, 4, "k1"⟩, ⟨"ubuntu", ⟨1,0,2⟩, 4, "k2"⟩] g,
        osLeR evicted x) ∧
      (∀ x ∈ groupOf [⟨"ubuntu", ⟨1,0,1⟩, 4, "k1"⟩, ⟨"ubuntu", ⟨1,0,2⟩, 4, "k2"⟩] g,
        evicted.name = x.name → Semver.leb evicted.ver x.ver = true) ∧
      (0 < evicted.size → (4 : Int) < 8)) :=
  ⟨by decide, @C5_reduce_evicts_oldest 1
    [⟨"ubuntu", ⟨1,0,1⟩, 4, "k1"⟩, ⟨"ubuntu", ⟨1,0,2⟩, 4, "k2"⟩] 8 (by decide)
    [⟨"ubuntu", ⟨1,0,2⟩, 4, "k2"⟩] 4 (by decide)⟩

/-! ## The cache diff engine (`Syncer.defineDiff`) -/

/-- A cache entity as seen by the diff engine: identity key `subPath`
(`GetSubPath`), checksum capability (`HasMD5`), and the outcome of fetching
its remote checksum in memory (`DownloadMD5` with no target; `none` models a
fetch error). -/
structure CEnt where
  name : String
  subPath : String
  size : Int
  hasMD5 : Bool
  md5Remote : Option String
deriving DecidableEq, Repr

/-- The verdict of the per-entity branch of `defineDiff`'s first loop. -/
inductive DiffAct where
  | add
  | keep
  | skip
deriving DecidableEq, Repr

/-- The body of `defineDiff`'s loop over desired entities, factored per
element: no on-disk record with the same `subPath` → add; no checksum
capability → keep; remote checksum fetch failed → skip (logged `continue`);
local hash computation failed → abort the whole diff; otherwise compare
hashes.  `localHash` is the oracle for `fileMD5` of the file at a sub
path under the root. -/
def entOutcome (localHash : String → Option String) (current : List CEnt) (w : CEnt) :
    Except String DiffAct :=
  match current.find? (fun c => decide (c.subPath = w.subPath)) with
  | none => .ok .add
  | some existing =>
    if !w.hasMD5 then .ok .keep
    else
      match w.md5Remote with
      | none => .ok .skip
      | some expected =>
        match localHash existing.subPath with
        | none => .error "error calculating hash sum of local file"
        | some h => if h ≠ expected then .ok .add else .ok .keep

/-- The first loop of `defineDiff`: builds `add` and `keep` in desired-set
order, aborting at the first local-hash failure. -/
def diffAddKeep (localHash : String → Option String) (current : List CEnt) :
    List CEnt → Except String (List CEnt × List CEnt)
  | [] => .ok ([], [])
  | w :: rest =>
    match entOutcome localHash current w with
    | .error e => .error e
    | .ok act =>
      match diffAddKeep localHash current rest with
      | .error e => .error e
      | .ok (a, k) =>
        match act with
        | .add => .ok (w :: a, k)
        | .keep => .ok (a, w :: k)
        | .skip => .ok (a, k)

/-- `Syncer.defineDiff`: compute `(remove, keep, add)`; the second loop
emits every current entity whose `subPath` matches no desired entity. -/
def defineDiff (localHash : String → Option String) (current want : List CEnt) :
    Except String (List CEnt × List CEnt × List CEnt) :=
  match diffAddKeep localHash current want with
  | .error e => .error e
  | .ok (a, k) =>
    .ok (current.filter (fun c => !(want.any (fun w => decide (w.subPath = c.subPath)))),
         k, a)

/-- A successful first loop classifies exactly by `entOutcome`. -/
theorem diffAddKeep_ok {localHash : String → Option String} {current want : List CEnt}
    {a k : List CEnt} (h : diffAddKeep localHash current want = .ok (a, k)) :
    a = want.filter (fun w => decide (entOutcome localHash current w = .ok .add)) ∧
    k = want.filter (fun w => decide (entOutcome localHash current w = .ok .keep)) := by
  induction want generalizing a k with
  | nil =>
    cases h
    exact ⟨rfl, rfl⟩
  | cons w rest ih =>
    rw [diffAddKeep] at h
    cases ho : entOutcome localHash current w with
    | error e => rw [ho] at h; cases h
    | ok act =>
      rw [ho] at h
      cases hr : diffAddKeep localHash current rest with
      | error e => rw [hr] at h; cases h
      | ok pair =>
        obtain ⟨a', k'⟩ := pair
        rw [hr] at h
        obtain ⟨ha', hk'⟩ := ih hr
        cases act with
        | add =>
          cases h
          constructor
          · rw [List.filter_cons, if_pos (by simp [ho]), ha']
          · rw [List.filter_cons, if_neg (by simp [ho]), hk']
        | keep =>
          cases h
          constructor
          · rw [List.filter_cons, if_neg (by simp [ho]), ha']
          · rw [List.filter_cons, if_pos (by simp [ho]), hk']
        | skip =>
          cases h
          constructor
          · rw [List.filter_cons, if_neg (by simp [ho]), ha']
          · rw [List.filter_cons, if_neg (by simp [ho]), hk']

/-- If the first loop succeeded, no desired entity hit the abort branch. -/
theorem diffAddKeep_no_abort {localHash : String → Option String} {current want : List CEnt}
    {a k : List CEnt} (h : diffAddKeep localHash current want = .ok (a, k)) :
    ∀ w ∈ want, ∃ act, entOutcome localHash current w = .ok act := by
  induction want generalizing a k with
  | nil => intro w hw; cases hw
  | cons v rest ih =>
    rw [diffAddKeep] at h
    cases ho : entOutcome localHash current v with
    | error e => rw [ho] at h; cases h
    | ok act =>
      rw [ho] at h
      cases hr : diffAddKeep localHash current rest with
      | error e => rw [hr] at h; cases h
      | ok pair =>
        obtain ⟨a', k'⟩ := pair
        rw [hr] at h
        intro w hw
        rcases List.mem_cons.mp hw with rfl | hw
        · exact ⟨act, ho⟩
        · exact ih hr w hw

/-- C2: on success, the diff classifies every entity: current-only entities
are removed, desired-only entities are added, matched entities without
checksum capability are kept unconditionally, and matched entities whose
remote checksum was fetched go to exactly one of keep (hashes equal) or add
(hashes differ). -/
theorem C2_diff_partition (localHash : String → Option String)
    (current want : List CEnt)
    (hcur : List.Pairwise (fun a b => a.subPath ≠ b.subPath) current)
    (hwant : List.Pairwise (fun a b => a.subPath ≠ b.subPath) want)
    {rem keep add : List CEnt}
    (h : defineDiff localHash current want = .ok (rem, keep, add)) :
    (∀ c ∈ current, (∀ w ∈ want, w.subPath ≠ c.subPath) → c ∈ rem) ∧
    (∀ w ∈ want, (∀ c ∈ current, c.subPath ≠ w.subPath) → w ∈ add) ∧
    (∀ w ∈ want, (∃ c ∈ current, c.subPath = w.subPath) → w.hasMD5 = false → w ∈ keep) ∧
    (∀ w ∈ want, (∃ c ∈ current, c.subPath = w.subPath) → w.hasMD5 = true →
      ∀ cs, w.md5Remote = some cs →
      ∃ hl, localHash w.subPath = some hl ∧
        (hl = cs → w ∈ keep ∧ w ∉ add) ∧ (hl ≠ cs → w ∈ add ∧ w ∉ keep)) := by
  rw [defineDiff] at h
  cases hak : diffAddKeep localHash current want with
  | error e => rw [hak] at h; cases h
  | ok pair =>
    obtain ⟨a, k⟩ := pair
    rw [hak] at h
    cases h
    obtain ⟨ha, hk⟩ := diffAddKeep_ok hak
    refine ⟨?_, ?_, ?_, ?_⟩
    · intro c hc hno
      refine List.mem_filter.mpr ⟨hc, ?_⟩
      simp only [Bool.not_eq_true', List.any_eq_false, decide_eq_true_eq]
      intro w hw
      exact hno w hw
    · intro w hw hno
      have hfind : current.find? (fun c => decide (c.subPath = w.subPath)) = none := by
        rw [List.find?_eq_none]
        intro c hc
        simpa using hno c hc
      have hout : entOutcome localHash current w = .ok .add := by
        rw [entOutcome, hfind]
      rw [ha]
      exact List.mem_filter.mpr ⟨hw, by simp [hout]⟩
    · intro w hw hmatch hmd5
      obtain ⟨existing, hfind⟩ : ∃ e, current.find?
          (fun c => decide (c.subPath = w.subPath)) = some e := by
        obtain ⟨c, hc, hcp⟩ := hmatch
        have : (current.find? (fun c => decide (c.subPath = w.subPath))).isSome :=
          List.find?_isSome.mpr ⟨c, hc, by simpa using hcp⟩
        exact Option.isSome_iff_exists.mp this
      have hout : entOutcome localHash current w = .ok .keep := by
        rw [entOutcome, hfind, hmd5]
        rfl
      rw [hk]
      exact List.mem_filter.mpr ⟨hw, by simp [hout]⟩
    · intro w hw hmatch hmd5 cs hcs
      obtain ⟨existing, hfind⟩ : ∃ e, current.find?
          (fun c => decide (c.subPath = w.subPath)) = some e := by
        obtain ⟨c, hc, hcp⟩ := hmatch
        have : (current.find? (fun c => decide (c.subPath = w.subPath))).isSome :=
          List.find?_isSome.mpr ⟨c, hc, by simpa using hcp⟩
        exact Option.isSome_iff_exists.mp this
      have hsub : existing.subPath = w.subPath := by
        have := List.find?_some hfind
        simpa using this
      obtain ⟨act, hact⟩ := diffAddKeep_no_abort hak w hw
      cases hloc : localHash existing.subPath with
      | none =>
        simp [entOutcome, hfind, hmd5, hcs, hloc] at hact
      | some hl =>
        refine ⟨hl, hsub ▸ hloc, ?_, ?_⟩
        · intro heq
          have hout : entOutcome localHash current w = .ok .keep := by
            simp [entOutcome, hfind, hmd5, hcs, hloc, heq]
          constructor
          · rw [hk]
            exact List.mem_filter.mpr ⟨hw, by simp [hout]⟩
          · rw [ha]
            intro hmem
            have := (List.mem_filter.mp hmem).2
            rw [hout] at this
            simp at this
        · intro hne
          have hout : entOutcome localHash current w = .ok .add := by
            simp [entOutcome, hfind, hmd5, hcs, hloc, hne]
          constructor
          · rw [ha]
            exact List.mem_filter.mpr ⟨hw, by simp [hout]⟩
          · rw [hk]
            intro hmem
            have := (List.mem_filter.mp hmem).2
            rw [hout] at this
            simp at this

theorem C2_diff_partition_witness :
    defineDiff (fun _ => some "x")
      [⟨"f1", "a/1", 1, false, none⟩]
      [⟨"w1", "a/1", 1, true, some "x"⟩, ⟨"w2", "c/1", 2, true, some "y"⟩]
      = .ok ([], [⟨"w1", "a/1", 1, true, some "x"⟩], [⟨"w2", "c/1", 2, true, some "y"⟩]) ∧
    (⟨"w2", "c/1", 2, true, some "y"⟩ : CEnt)
      ∈ [(⟨"w2", "c/1", 2, true, some "y"⟩ : CEnt)] :=
  ⟨by decide,
    (@C2_diff_partition (fun _ => some "x")
      [⟨"f1", "a/1", 1, false, none⟩]
      [⟨"w1", "a/1", 1, true, some "x"⟩, ⟨"w2", "c/1", 2, true, some "y"⟩]
      (by decide) (by decide)
      [] [⟨"w1", "a/1", 1, true, some "x"⟩] [⟨"w2", "c/1", 2, true, some "y"⟩]
      (by decide)).2.1
      ⟨"w2", "c/1", 2, true, some "y"⟩ (by decide) (by decide)⟩

/-- C6: a matched, checksum-capable desired entity whose remote checksum
fetch fails is skipped for the cycle — it ends up in neither `add` nor
`keep`. -/
theorem C6_checksum_failure_skips (localHash : String → Option String)
    (current want : List CEnt) {rem keep add : List CEnt}
    (h : defineDiff localHash current want = .ok (rem, keep, add))
    (w : CEnt) (hw : w ∈ want) (hmatch : ∃ c ∈ current, c.subPath = w.subPath)
    (hmd5 : w.hasMD5 = true) (hfail : w.md5Remote = none) :
    w ∉ add ∧ w ∉ keep := by
  rw [defineDiff] at h
  cases hak : diffAddKeep localHash current want with
  | error e => rw [hak] at h; cases h
  | ok pair =>
    obtain ⟨a, k⟩ := pair
    rw [hak] at h
    cases h
    obtain ⟨ha, hk⟩ := diffAddKeep_ok hak
    obtain ⟨existing, hfind⟩ : ∃ e, current.find?
        (fun c => decide (c.subPath = w.subPath)) = some e := by
      obtain ⟨c, hc, hcp⟩ := hmatch
      have : (current.find? (fun c => decide (c.subPath = w.subPath))).isSome :=
        List.find?_isSome.mpr ⟨c, hc, by simpa using hcp⟩
      exact Option.isSome_iff_exists.mp this
    have hout : entOutcome localHash current w = .ok .skip := by
      rw [entOutcome, hfind, hmd5, hfail]
      rfl
    constructor
    · rw [ha]
      intro hmem
      have := (List.mem_filter.mp hmem).2
      rw [hout] at this
      simp at this
    · rw [hk]
      intro hmem
      have := (List.mem_filter.mp hmem).2
      rw [hout] at this
      simp at this

theorem C6_checksum_failure_skips_witness :
    defineDiff (fun _ => some "x")
      [⟨"f1", "a/1", 1, false, none⟩] [⟨"w1", "a/1", 1, true, none⟩]
      = .ok ([], [], []) ∧
    ((⟨"w1", "a/1", 1, true, none⟩ : CEnt) ∉ ([] : List CEnt) ∧
     (⟨"w1", "a/1", 1, true, none⟩ : CEnt) ∉ ([] : List CEnt)) :=
  ⟨by decide,
    @C6_checksum_failure_skips (fun _ => some "x")
      [⟨"f1", "a/1", 1, false, none⟩] [⟨"w1", "a/1", 1, true, none⟩]
      [] [] []
      (by decide) ⟨"w1", "a/1", 1, true, none⟩ (by decide)
      ⟨⟨"f1", "a/1", 1, false, none⟩, by decide, by decide⟩ (by decide) (by decide)⟩

/-! ## The materializer (`Syncer.download`, `Syncer.remove`, the batch loops
of `Syncer.Sync`) -/

/-- Contents of a file in the cache-filesystem model. -/
inductive FileData where
  | complete (id : String)
  | truncated (id : String)
  | checksum (id : String)
  | preexisting
deriving DecidableEq, Repr

/-- Filesystem state: the file (if any) at each path. -/
def FSt : Type := String → Option FileData

/-- The primitive filesystem mutations the materializer performs. -/
inductive Step where
  | del (p : String)
  | write (p : String) (d : FileData)
  | rename (src dst : String)
deriving DecidableEq, Repr

def applyStep (fs : FSt) : Step → FSt
  | .del p => fun q => if q = p then none else fs q
  | .write p d => fun q => if q = p then some d else fs q
  | .rename src dst => fun q => if q = dst then fs src else if q = src then none else fs q

def applyTrace (fs : FSt) (tr : List Step) : FSt :=
  tr.foldl applyStep fs

/-- `strings.Join([]string{s.tmpPath, "tmp"}, "/")`: the fixed temporary
download path under the scratch directory. -/
def tmpFilePath (tmpDir : String) : String :=
  tmpDir ++ "/" ++ "tmp"

/-- `strings.Join([]string{rootPath, e.GetSubPath()}, "/")`. -/
def entTarget (rootPath : String) (e : CEnt) : String :=
  rootPath ++ "/" ++ e.subPath

theorem append_md5_ne (s : String) : s ++ ".md5" ≠ s := by
  intro h
  have := congrArg String.length h
  rw [String.length_append] at this
  have h4 : (".md5" : String).length = 4 := rfl
  omega

/-- Failure injection for one `Syncer.download` call: whether the artifact
stream, the rename and the sidecar stream succeed. -/
structure DlEnv where
  streamOk : Bool
  renameOk : Bool
  md5Ok : Bool
deriving DecidableEq, Repr

/-- `Syncer.download` as a trace of filesystem steps plus an error outcome.

The code removes the fixed temp path, the target and its sidecar, creates
the temp file (`truncated` until the stream finishes), streams
(`complete` on success), then renames into place and, for checksum-capable
entities, writes the sidecar the same way (create `truncated`, stream to
`checksum`).  The deferred `fs.Remove(tmpTargetPath)` is registered only
*after* a successful stream, so a stream failure returns without deleting
the temp file; all later exits delete it (a no-op after the rename). -/
def downloadSteps (env : DlEnv) (tmpDir rootPath : String) (e : CEnt) :
    List Step × Option String :=
  let tmp := tmpFilePath tmpDir
  let tgt := entTarget rootPath e
  let md5t := tgt ++ ".md5"
  let pre : List Step := [.del tmp, .del tgt, .del md5t, .write tmp (.truncated e.subPath)]
  if env.streamOk = false then
    (pre, some "download error")
  else
    let streamed := pre ++ [.write tmp (.complete e.subPath)]
    if env.renameOk = false then
      (streamed ++ [.del tmp], some "error moving downloaded file to final destination")
    else
      let renamed := streamed ++ [.rename tmp tgt]
      if e.hasMD5 = false then
        (renamed ++ [.del tmp], none)
      else
        let created := renamed ++ [.write md5t (.truncated e.subPath)]
        if env.md5Ok = false then
          (created ++ [.del tmp], some "md5 download error")
        else
          (created ++ [.write md5t (.checksum e.subPath), .del tmp], none)

/-- `Syncer.remove`: delete the file (logging *and returning* the error on
failure), then — if the existence check for the sidecar succeeds and it
exists — delete the sidecar the same way; an existence-check error is only
logged.  `delFail` injects deletion failures, `exOut` existence-check
outcomes. -/
def removeEntity (delFail : String → Bool) (exOut : String → Except Unit Bool)
    (rootPath : String) (e : CEnt) : Except String Unit :=
  let p := entTarget rootPath e
  if delFail p then .error "error deleting file"
  else
    match exOut (p ++ ".md5") with
    | .error _ => .ok ()
    | .ok false => .ok ()
    | .ok true =>
      if delFail (p ++ ".md5") then .error "error deleting os image md5 file"
      else .ok ()

/-- `Syncer.remove` as a batch step (the cache-state effect of removals is
not needed by the claims, only the outcome). -/
def removeStepOf (delFail : String → Bool) (exOut : String → Except Unit Bool)
    (rootPath : String) : Unit → CEnt → Unit × Option String :=
  fun _ e =>
    ((), match removeEntity delFail exOut rootPath e with
         | .error m => some m
         | .ok _ => none)

/-- `Syncer.download` as a batch step over the filesystem model. -/
def downloadStepOf (envOf : CEnt → DlEnv) (tmpDir rootPath : String) :
    FSt → CEnt → FSt × Option String :=
  fun fs e =>
    (applyTrace fs (downloadSteps (envOf e) tmpDir rootPath e).1,
     (downloadSteps (envOf e) tmpDir rootPath e).2)

/-- Result of one of `Syncer.Sync`'s batch loops. -/
structure BatchRun (σ : Type) where
  state : σ
  attempted : List CEnt
  err : Option String

/-- The `remove`/`add` loops of `Syncer.Sync`: entities are processed in
order, and the first failure is wrapped and returned, aborting the batch. -/
def runBatch {σ : Type} (step : σ → CEnt → σ × Option String) (wrap : String → String) :
    σ → List CEnt → BatchRun σ
  | s, [] => ⟨s, [], none⟩
  | s, e :: rest =>
    match step s e with
    | (s', some msg) => ⟨s', [e], some (wrap msg)⟩
    | (s', none) =>
      let b := runBatch step wrap s' rest
      ⟨b.state, e :: b.attempted, b.err⟩

/-- Result of the materialization part of one `Syncer.Sync` call. -/
structure CycleRun (σ : Type) where
  state : σ
  removedAttempted : List CEnt
  downloadAttempted : List CEnt
  err : Option String

/-- The non-dry materialization of `Syncer.Sync` after the diff: run the
remove batch; on its failure return that error without starting the add
batch; otherwise run the add batch (directory pruning, which follows a
fully successful cycle, has no bearing on the claims). -/
def syncCycle {σ : Type} (removeStep downloadStep : σ → CEnt → σ × Option String)
    (s : σ) (remove add : List CEnt) : CycleRun σ :=
  let rb := runBatch removeStep
    (fun m => "error deleting cached file, retrying in next sync schedule: " ++ m) s remove
  match rb.err with
  | some e => ⟨rb.state, rb.attempted, [], some e⟩
  | none =>
    let ab := runBatch downloadStep
      (fun m => "error downloading file, retrying in next sync schedule: " ++ m) rb.state add
    ⟨ab.state, rb.attempted, ab.attempted, ab.err⟩

/-- A batch stops at its first failing entity: everything before it was
processed, nothing after it. -/
theorem runBatch_first_failure {σ : Type} (step : σ → CEnt → σ × Option String)
    (wrap : String → String) (e : CEnt) (msg : String) :
    ∀ (pre : List CEnt), (∀ x ∈ pre, ∀ st, (step st x).2 = none) →
    (∀ st, (step st e).2 = some msg) →
    ∀ (post : List CEnt) (s : σ),
    (runBatch step wrap s (pre ++ e :: post)).attempted = pre ++ [e] ∧
    (runBatch step wrap s (pre ++ e :: post)).err = some (wrap msg) := by
  intro pre
  induction pre with
  | nil =>
    intro _ hfail post s
    simp only [List.nil_append, runBatch]
    cases hstep : step s e with
    | mk s' r =>
      have : r = some msg := by
        have := hfail s
        rw [hstep] at this
        exact this
      subst this
      exact ⟨rfl, rfl⟩
  | cons x pre ih =>
    intro hpre hfail post s
    simp only [List.cons_append, runBatch]
    cases hstep : step s x with
    | mk s' r =>
      have : r = none := by
        have := hpre x (List.mem_cons_self x pre) s
        rw [hstep] at this
        exact this
      subst this
      have hr := ih (fun y hy => hpre y (List.mem_cons_of_mem x hy)) hfail post s'
      simp [hr.1, hr.2]

/-- A batch whose steps all succeed processes every entity and reports no
error. -/
theorem runBatch_all_ok {σ : Type} (step : σ → CEnt → σ × Option String)
    (wrap : String → String) :
    ∀ (batch : List CEnt), (∀ x ∈ batch, ∀ st, (step st x).2 = none) →
    ∀ (s : σ),
    (runBatch step wrap s batch).attempted = batch ∧
    (runBatch step wrap s batch).err = none := by
  intro batch
  induction batch with
  | nil => intro _ s; exact ⟨rfl, rfl⟩
  | cons x rest ih =>
    intro hok s
    simp only [runBatch]
    cases hstep : step s x with
    | mk s' r =>
      have : r = none := by
        have := hok x (List.mem_cons_self x rest) s
        rw [hstep] at this
        exact this
      subst this
      have hr := ih (fun y hy => hok y (List.mem_cons_of_mem x hy)) s'
      simp [hr.1, hr.2]

/-- C7 as stated is refuted by the code: with a single failing removal
(`delFail` hits `root/a/1`), the cycle stops at the first removal, never
reaches the second removal or the add batch, and surfaces the wrapped
removal error as the cycle's error. -/
theorem C7_counterexample :
    (syncCycle
      (removeStepOf (fun p => decide (p = "root/a/1")) (fun _ => .ok false) "root")
      (fun (u : Unit) _ => (u, none)) ()
      [⟨"e1", "a/1", 1, false, none⟩, ⟨"e2", "b/1", 1, false, none⟩]
      [⟨"e3", "c/1", 1, false, none⟩]).downloadAttempted = [] ∧
    (syncCycle
      (removeStepOf (fun p => decide (p = "root/a/1")) (fun _ => .ok false) "root")
      (fun (u : Unit) _ => (u, none)) ()
      [⟨"e1", "a/1", 1, false, none⟩, ⟨"e2", "b/1", 1, false, none⟩]
      [⟨"e3", "c/1", 1, false, none⟩]).removedAttempted = [⟨"e1", "a/1", 1, false, none⟩] ∧
    (syncCycle
      (removeStepOf (fun p => decide (p = "root/a/1")) (fun _ => .ok false) "root")
      (fun (u : Unit) _ => (u, none)) ()
      [⟨"e1", "a/1", 1, false, none⟩, ⟨"e2", "b/1", 1, false, none⟩]
      [⟨"e3", "c/1", 1, false, none⟩]).err
      = some "error deleting cached file, retrying in next sync schedule: error deleting file" := by
  refine ⟨by decide, by decide, by decide⟩

/-- C7 (amended): a removal failure is logged and *returned*; the remove
batch stops at the failing entity, the add batch is skipped entirely, and
the wrapped removal error is the cycle's error (and `Syncer.remove` indeed
returns an error exactly when deleting the file, or its existing sidecar,
fails). -/
theorem C7_remove_failure_aborts_cycle {σ : Type}
    (removeStep downloadStep : σ → CEnt → σ × Option String)
    (s : σ) (add pre post : List CEnt) (e : CEnt) (msg : String)
    (hpre : ∀ x ∈ pre, ∀ st, (removeStep st x).2 = none)
    (hfail : ∀ st, (removeStep st e).2 = some msg) :
    (syncCycle removeStep downloadStep s (pre ++ e :: post) add).err
      = some ("error deleting cached file, retrying in next sync schedule: " ++ msg) ∧
    (syncCycle removeStep downloadStep s (pre ++ e :: post) add).removedAttempted
      = pre ++ [e] ∧
    (syncCycle removeStep downloadStep s (pre ++ e :: post) add).downloadAttempted = [] ∧
    (∀ (delFail : String → Bool) (exOut : String → Except Unit Bool) (root : String)
       (x : CEnt), delFail (entTarget root x) = true →
       removeEntity delFail exOut root x = .error "error deleting file") := by
  have hb := runBatch_first_failure removeStep
    (fun m => "error deleting cached file, retrying in next sync schedule: " ++ m)
    e msg pre hpre hfail post s
  refine ⟨?_, ?_, ?_, ?_⟩
  · simp only [syncCycle, hb.2]
  · simp only [syncCycle, hb.2, hb.1]
  · simp only [syncCycle, hb.2]
  · intro delFail exOut root x hdel
    simp only [removeEntity, hdel]
    rfl

theorem C7_remove_failure_aborts_cycle_witness :
    (syncCycle
      (removeStepOf (fun p => decide (p = "r/x/1")) (fun _ => .ok false) "r")
      (fun (u : Unit) _ => (u, none)) ()
      ([⟨"k0", "w/1", 1, false, none⟩] ++ ⟨"k1", "x/1", 1, false, none⟩ ::
        [⟨"k2", "y/1", 1, false, none⟩])
      [⟨"k3", "z/1", 1, false, none⟩]).err
      = some ("error deleting cached file, retrying in next sync schedule: "
          ++ "error deleting file") ∧
    (syncCycle
      (removeStepOf (fun p => decide (p = "r/x/1")) (fun _ => .ok false) "r")
      (fun (u : Unit) _ => (u, none)) ()
      ([⟨"k0", "w/1", 1, false, none⟩] ++ ⟨"k1", "x/1", 1, false, none⟩ ::
        [⟨"k2", "y/1", 1, false, none⟩])
      [⟨"k3", "z/1", 1, false, none⟩]).removedAttempted
      = [⟨"k0", "w/1", 1, false, none⟩] ++ [⟨"k1", "x/1", 1, false, none⟩] ∧
    (syncCycle
      (removeStepOf (fun p => decide (p = "r/x/1")) (fun _ => .ok false) "r")
      (fun (u : Unit) _ => (u, none)) ()
      ([⟨"k0", "w/1", 1, false, none⟩] ++ ⟨"k1", "x/1", 1, false, none⟩ ::
        [⟨"k2", "y/1", 1, false, none⟩])
      [⟨"k3", "z/1", 1, false, none⟩]).downloadAttempted = [] := by
  have h := C7_remove_failure_aborts_cycle
    (removeStepOf (fun p => decide (p = "r/x/1")) (fun _ => .ok false) "r")
    (fun (u : Unit) _ => (u, none)) ()
    [⟨"k3", "z/1", 1, false, none⟩]
    [⟨"k0", "w/1", 1, false, none⟩] [⟨"k2", "y/1", 1, false, none⟩]
    ⟨"k1", "x/1", 1, false, none⟩ "error deleting file"
    (by intro x hx st
        rcases List.mem_singleton.mp hx with rfl
        rfl)
    (by intro st; rfl)
  exact ⟨h.1, h.2.1, h.2.2.1⟩

/-- C8 as stated is refuted on the temp-file clause: when the stream fails,
the deferred temp cleanup was never registered, so the temp file (truncated)
is left behind rather than deleted. -/
theorem C8_counterexample :
    (downloadSteps ⟨false, true, true⟩ "tmpd" "cache" ⟨"e1", "sub/f", 1, false, none⟩).2
      = some "download error" ∧
    applyTrace (fun _ => none)
      (downloadSteps ⟨false, true, true⟩ "tmpd" "cache" ⟨"e1", "sub/f", 1, false, none⟩).1
      (tmpFilePath "tmpd") = some (.truncated "sub/f") := by
  exact ⟨by decide, by decide⟩

/-- C8 (amended): a download streams to the fixed temp path and only then
renames into `rootPath/subPath`; a streaming failure propagates the error
and leaves the target path empty (the temp file however remains, cleaned at
the start of the next download); the target path never holds a truncated
file at any point of the trace; and the first failing download aborts the
remainder of the add batch. -/
theorem C8_download_atomic (env : DlEnv) (tmpDir rootPath : String)
    (e : CEnt) (fs : FSt)
    (htmp : tmpFilePath tmpDir ≠ entTarget rootPath e)
    (htmpmd5 : tmpFilePath tmpDir ≠ entTarget rootPath e ++ ".md5")
    (hfs : ∀ x, fs (entTarget rootPath e) ≠ some (.truncated x)) :
    (env.streamOk = false →
      (downloadSteps env tmpDir rootPath e).2 = some "download error" ∧
      applyTrace fs (downloadSteps env tmpDir rootPath e).1 (entTarget rootPath e) = none ∧
      applyTrace fs (downloadSteps env tmpDir rootPath e).1 (tmpFilePath tmpDir)
        = some (.truncated e.subPath)) ∧
    (env.streamOk = true → env.renameOk = true →
      (downloadSteps env tmpDir rootPath e).1.get? 4
        = some (.write (tmpFilePath tmpDir) (.complete e.subPath)) ∧
      (downloadSteps env tmpDir rootPath e).1.get? 5
        = some (.rename (tmpFilePath tmpDir) (entTarget rootPath e))) ∧
    (∀ k x, applyTrace fs ((downloadSteps env tmpDir rootPath e).1.take k)
        (entTarget rootPath e) ≠ some (.truncated x)) ∧
    (∀ (envOf : CEnt → DlEnv) (wrap : String → String) (pre post : List CEnt)
       (w : CEnt) (msg : String) (s : FSt),
       (∀ y ∈ pre, (downloadSteps (envOf y) tmpDir rootPath y).2 = none) →
       (downloadSteps (envOf w) tmpDir rootPath w).2 = some msg →
       (runBatch (downloadStepOf envOf tmpDir rootPath) wrap s (pre ++ w :: post)).attempted
          = pre ++ [w] ∧
       (runBatch (downloadStepOf envOf tmpDir rootPath) wrap s (pre ++ w :: post)).err
          = some (wrap msg)) := by
  have h1 : entTarget rootPath e ≠ tmpFilePath tmpDir := fun h => htmp h.symm
  have h2 : entTarget rootPath e ≠ entTarget rootPath e ++ ".md5" :=
    fun h => append_md5_ne (entTarget rootPath e) h.symm
  refine ⟨?_, ?_, ?_, ?_⟩
  · intro hst
    refine ⟨by simp [downloadSteps, hst], ?_, ?_⟩
    · simp [downloadSteps, hst, applyTrace, applyStep, h1, h2, htmp, htmpmd5]
    · simp [downloadSteps, hst, applyTrace, applyStep, h1, h2, htmp, htmpmd5]
  · intro hst hrn
    by_cases hmd : e.hasMD5 <;> by_cases hm5 : env.md5Ok = false <;>
      simp [downloadSteps, hst, hrn, hmd, hm5]
  · intro k x
    by_cases hst : env.streamOk = false <;>
      by_cases hrn : env.renameOk = false <;>
        by_cases hmd : e.hasMD5 = false <;>
          by_cases hm5 : env.md5Ok = false <;>
            rcases k with _|_|_|_|_|_|_|_|_|k <;>
              simp [downloadSteps, hst, hrn, hmd, hm5, applyTrace, applyStep,
                h1, h2, htmp, htmpmd5, hfs]
  · intro envOf wrap pre post w msg s hpre hfailw
    exact runBatch_first_failure (downloadStepOf envOf tmpDir rootPath) wrap w msg pre
      (fun y hy st => hpre y hy) (fun st => hfailw) post s

/-- C10: every download first deletes the cached file at
`rootPath/subPath` and its `.md5` sidecar (the first three steps are the
three removals), so between the start of the download and the rename the
target holds no file, and any failure at or before the rename leaves no
file at the target — a previously cached copy is not preserved. -/
theorem C10_download_deletes_first (env : DlEnv) (tmpDir rootPath : String)
    (e : CEnt) (fs : FSt)
    (htmp : tmpFilePath tmpDir ≠ entTarget rootPath e)
    (htmpmd5 : tmpFilePath tmpDir ≠ entTarget rootPath e ++ ".md5") :
    ((downloadSteps env tmpDir rootPath e).1.take 3
      = [.del (tmpFilePath tmpDir), .del (entTarget rootPath e),
         .del (entTarget rootPath e ++ ".md5")]) ∧
    (applyTrace fs ((downloadSteps env tmpDir rootPath e).1.take 3)
        (entTarget rootPath e) = none ∧
     applyTrace fs ((downloadSteps env tmpDir rootPath e).1.take 3)
        (entTarget rootPath e ++ ".md5") = none) ∧
    ((env.streamOk = false ∨ env.renameOk = false) →
      applyTrace fs (downloadSteps env tmpDir rootPath e).1 (entTarget rootPath e) = none ∧
      ((downloadSteps env tmpDir rootPath e).2).isSome = true) ∧
    (∀ k, 2 ≤ k → k ≤ 5 →
      applyTrace fs ((downloadSteps env tmpDir rootPath e).1.take k)
        (entTarget rootPath e) = none) := by
  have h1 : entTarget rootPath e ≠ tmpFilePath tmpDir := fun h => htmp h.symm
  have h2 : entTarget rootPath e ≠ entTarget rootPath e ++ ".md5" :=
    fun h => append_md5_ne (entTarget rootPath e) h.symm
  have h4 : entTarget rootPath e ++ ".md5" ≠ tmpFilePath tmpDir := fun h => htmpmd5 h.symm
  have htake : ∀ (b1 b2 b3 : Bool),
      (downloadSteps ⟨b1, b2, b3⟩ tmpDir rootPath e).1.take 3
      = [.del (tmpFilePath tmpDir), .del (entTarget rootPath e),
         .del (entTarget rootPath e ++ ".md5")] := by
    intro b1 b2 b3
    by_cases hmd : e.hasMD5 <;> cases b1 <;> cases b2 <;> cases b3 <;>
      simp [downloadSteps, hmd]
  refine ⟨?_, ?_, ?_, ?_⟩
  · obtain ⟨b1, b2, b3⟩ := env
    exact htake b1 b2 b3
  · obtain ⟨b1, b2, b3⟩ := env
    rw [htake b1 b2 b3]
    constructor
    · simp [applyTrace, applyStep, h1, h2]
    · simp [applyTrace, applyStep, h4]
  · intro hfl
    rcases hfl with hst | hrn
    · constructor
      · simp [downloadSteps, hst, applyTrace, applyStep, h1, h2, htmp, htmpmd5]
      · simp [downloadSteps, hst]
    · by_cases hst : env.streamOk = false
      · constructor
        · simp [downloadSteps, hst, applyTrace, applyStep, h1, h2, htmp, htmpmd5]
        · simp [downloadSteps, hst]
      · constructor
        · simp [downloadSteps, hst, hrn, applyTrace, applyStep, h1, h2, htmp, htmpmd5]
        · simp [downloadSteps, hst, hrn]
  · intro k hk2 hk5
    by_cases hst : env.streamOk = false <;>
      by_cases hrn : env.renameOk = false <;>
        by_cases hmd : e.hasMD5 = false <;>
          by_cases hm5 : env.md5Ok = false <;>
            rcases k with _|_|_|_|_|_|k <;>
              first
              | omega
              | simp [downloadSteps, hst, hrn, hmd, hm5, applyTrace, applyStep,
                  h1, h2, htmp, htmpmd5]

theorem C8_download_atomic_witness :
    (downloadSteps ⟨false, true, true⟩ "tmpd" "cache" ⟨"e2", "a/b", 1, true, some "m"⟩).2
      = some "download error" ∧
    applyTrace (fun _ => none)
      (downloadSteps ⟨false, true, true⟩ "tmpd" "cache" ⟨"e2", "a/b", 1, true, some "m"⟩).1
      (entTarget "cache" ⟨"e2", "a/b", 1, true, some "m"⟩) = none ∧
    applyTrace (fun _ => none)
      (downloadSteps ⟨false, true, true⟩ "tmpd" "cache" ⟨"e2", "a/b", 1, true, some "m"⟩).1
      (tmpFilePath "tmpd") = some (.truncated "a/b") :=
  (C8_download_atomic ⟨false, true, true⟩ "tmpd" "cache" ⟨"e2", "a/b", 1, true, some "m"⟩
    (fun _ => none) (by decide) (by decide) (fun x h => Option.noConfusion h)).1 rfl

theorem C10_download_deletes_first_witness :
    (downloadSteps ⟨true, true, true⟩ "scratch" "root2"
        ⟨"e5", "p/q", 1, true, some "m"⟩).1.take 3
      = [.del (tmpFilePath "scratch"),
         .del (entTarget "root2" ⟨"e5", "p/q", 1, true, some "m"⟩),
         .del (entTarget "root2" ⟨"e5", "p/q", 1, true, some "m"⟩ ++ ".md5")] :=
  (C10_download_deletes_first ⟨true, true, true⟩ "scratch" "root2"
    ⟨"e5", "p/q", 1, true, some "m"⟩ (fun _ => none) (by decide) (by decide)).1

/-! ## The per-cycle orchestrator (`runSync` in `cmd/main.go`) -/

/-- One artifact kind's closure inside `runSync`: enumerate the desired set
(failing fatally for that kind only), then run `syncer.Sync`; either failure
is wrapped into the kind's error.  The cache state `σ` is only touched by
the sync step. -/
def kindPipeline {σ : Type} (enumerate : Except String (List CEnt))
    (syncRun : List CEnt → σ → σ × Option String)
    (wrapEnum wrapSync : String → String) (s : σ) : σ × Option String :=
  match enumerate with
  | .error e => (s, some (wrapEnum e))
  | .ok lst =>
    match syncRun lst s with
    | (s', none) => (s', none)
    | (s', some e) => (s', some (wrapSync e))

/-- `runSync`: run the image, kernel and boot-image pipelines sequentially,
appending each kind's error (if any) to `errs`; the cycle's aggregate
result is the list of collected errors (non-empty iff the cycle fails). -/
def runSyncModel {σ : Type} (images kernels bootImages : σ → σ × Option String)
    (s : σ) : σ × List String :=
  let (s1, e1) := images s
  let (s2, e2) := kernels s1
  let (s3, e3) := bootImages s2
  (s3, [e1, e2, e3].filterMap id)

/-- C9: all three artifact kinds run in every cycle — the state threads
through all three pipelines regardless of earlier failures — and every
kind's error is collected into the aggregate, which is empty exactly when
all kinds succeeded; an enumeration failure of a kind only produces that
kind's wrapped error and leaves the state untouched. -/
theorem C9_kinds_independent {σ : Type}
    (images kernels bootImages : σ → σ × Option String) (s : σ) :
    (runSyncModel images kernels bootImages s).1
      = (bootImages (kernels (images s).1).1).1 ∧
    (runSyncModel images kernels bootImages s).2
      = [(images s).2, (kernels (images s).1).2,
         (bootImages (kernels (images s).1).1).2].filterMap id ∧
    (∀ e1, (images s).2 = some e1 →
       e1 ∈ (runSyncModel images kernels bootImages s).2) ∧
    (∀ e2, (kernels (images s).1).2 = some e2 →
       e2 ∈ (runSyncModel images kernels bootImages s).2) ∧
    (∀ e3, (bootImages (kernels (images s).1).1).2 = some e3 →
       e3 ∈ (runSyncModel images kernels bootImages s).2) ∧
    ((runSyncModel images kernels bootImages s).2 = [] ↔
      ((images s).2 = none ∧ (kernels (images s).1).2 = none ∧
       (bootImages (kernels (images s).1).1).2 = none)) ∧
    (∀ (msg : String) (syncRun : List CEnt → σ → σ × Option String)
       (we ws : String → String) (st : σ),
       kindPipeline (.error msg) syncRun we ws st = (st, some (we msg))) := by
  have hr : runSyncModel images kernels bootImages s
      = ((bootImages (kernels (images s).1).1).1,
         [(images s).2, (kernels (images s).1).2,
          (bootImages (kernels (images s).1).1).2].filterMap id) := by
    simp only [runSyncModel]
  refine ⟨by rw [hr], by rw [hr], ?_, ?_, ?_, ?_, fun _ _ _ _ _ => rfl⟩
  · intro e1 he1
    rw [hr]
    simp [he1]
  · intro e2 he2
    rw [hr]
    simp [he2]
  · intro e3 he3
    rw [hr]
    simp [he3]
  · rw [hr]
    rcases (images s).2 with _ | e1 <;>
      rcases (kernels (images s).1).2 with _ | e2 <;>
        rcases (bootImages (kernels (images s).1).1).2 with _ | e3 <;>
          simp

theorem C9_kinds_independent_witness :
    "cannot gather images: boom" ∈ (runSyncModel
      (kindPipeline (.error "boom") (fun _ (st : Nat) => (st, none))
        (fun m => "cannot gather images: " ++ m) (fun m => "error during image sync: " ++ m))
      (fun st => (st + 1, none))
      (fun st => (st + 2, some "boot-fail")) 0).2 :=
  (C9_kinds_independent
    (kindPipeline (.error "boom") (fun _ (st : Nat) => (st, none))
      (fun m => "cannot gather images: " ++ m) (fun m => "error during image sync: " ++ m))
    (fun st => (st + 1, none))
    (fun st => (st + 2, some "boot-fail")) 0).2.2.1 "cannot gather images: boom" rfl

end ImageCacheSync
